import Mathlib

/-!
Verification of the libsigrok ipdbg-la protocol driver
(`src/hardware/ipdbg-la/protocol.c`).

The C functions are shallowly embedded: byte buffers become `List Nat`
(each element a `uint8` value, loads are reduced `% 256`), the
`dev_context` struct becomes a Lean structure, and functions that write
to the TCP socket are modelled as functions returning the list of bytes
they transmit, in transmission order.  Machine integers are modelled as
`Nat` with explicit `% 2^w` reductions exactly where the C types
truncate.
-/

namespace IpdbgLa

/-! ### Wire opcodes (protocol.c lines 40-69) -/

def CMD_SET_TRIGGER : Nat := 0x00
def CMD_CFG_TRIGGER : Nat := 0xF0
def CMD_CFG_LA : Nat := 0x0F
def CMD_START : Nat := 0xFE
def CMD_RESET : Nat := 0xEE
def CMD_GET_BUS_WIDTHS : Nat := 0xAA
def CMD_GET_LA_ID : Nat := 0xBB
def CMD_ESCAPE : Nat := 0x55
def CMD_TRIG_MASKS : Nat := 0xF1
def CMD_TRIG_MASK : Nat := 0xF3
def CMD_TRIG_VALUE : Nat := 0xF7
def CMD_TRIG_MASKS_LAST : Nat := 0xF9
def CMD_TRIG_MASK_LAST : Nat := 0xFB
def CMD_TRIG_VALUE_LAST : Nat := 0xFF
def CMD_TRIG_SELECT_EDGE_MASK : Nat := 0xF5
def CMD_TRIG_SET_EDGE_MASK : Nat := 0xF6
def FEATURE_AUGMENTER_SAMPLERATE_ENABLED : Nat := 0x00000004

/-- `static const uint8_t host_word_size = 8;` (line 77). -/
def host_word_size : Nat := 8

/-! ### FrameEncoder: `send_escaping` (lines 456-477)

The C loop walks the payload; for each byte it first sends an ESCAPE
byte if the payload byte equals `CMD_RESET`, then (separately) an ESCAPE
byte if it equals `CMD_ESCAPE`, then the payload byte itself.  The model
returns the byte stream handed to `tcp_send`, in order. -/

def send_escaping : List Nat → List Nat
  | [] => []
  | payload :: rest =>
      ((if payload = CMD_RESET then [CMD_ESCAPE] else []) ++
       (if payload = CMD_ESCAPE then [CMD_ESCAPE] else []) ++
       [payload]) ++ send_escaping rest

/-! ### Identity check: `ipdbg_la_request_id` (lines 796-818)

The four received ID bytes are compared with `strncmp` against `"IDBG"`
and `"idbg"`; since neither token contains a NUL, `strncmp(id, tok, 4)`
returns 0 exactly when the four bytes equal the token.  The C code then
tests `if (!cmp_IDBG && !cmp_idbg)` (both comparisons returned 0) and
returns `SR_ERR` inside that branch, else sets
`*version = (cmp_IDBG == 0) ? 0 : 1` and returns `SR_OK`.  The model
takes the four bytes read (the read itself is assumed to have delivered
4 bytes) and returns `some version` for `SR_OK` and `none` for the
`SR_ERR` branch. -/

def id_upper : List Nat := [0x49, 0x44, 0x42, 0x47]

def id_lower : List Nat := [0x69, 0x64, 0x62, 0x67]

def ipdbg_la_request_id (id : List Nat) : Option Nat :=
  if id = id_upper ∧ id = id_lower then none
  else some (if id = id_upper then 0 else 1)

/-! ### Device context (struct dev_context, protocol.h)

Only the fields used by the verified functions are modelled.  Byte
buffers (`uint8_t *`) become `List Nat`; `uint8` loads through
`byteAt` are reduced `% 256`. -/

structure dev_context where
  data_width : Nat
  runlength_code_width : Nat
  limit_samples : Nat
  limit_samples_max : Nat
  delay_value : Nat
  num_transfers : Nat
  raw_sample_buf : List Nat
  trigger_mask : List Nat
  trigger_value : List Nat
  trigger_mask_last : List Nat
  trigger_value_last : List Nat
  trigger_edge_mask : List Nat
deriving DecidableEq

/-- A `uint8` load from a byte buffer (out-of-range reads, which in C
would be heap over-reads, return 0). -/
def byteAt (buf : List Nat) (idx : Nat) : Nat := buf.getD idx 0 % 256

/-- `(devc->data_width + host_word_size - 1) / host_word_size`
(line 313). -/
def data_width_bytes (devc : dev_context) : Nat :=
  (devc.data_width + host_word_size - 1) / host_word_size

/-- `(devc->data_width + devc->runlength_code_width + host_word_size - 1)
/ host_word_size` (lines 310-312 and 387-389). -/
def raw_data_width_bytes (devc : dev_context) : Nat :=
  (devc.data_width + devc.runlength_code_width + host_word_size - 1) /
    host_word_size

/-- `(devc->runlength_code_width + host_word_size - 1) / host_word_size`
(lines 315-316). -/
def runlength_code_width_bytes (devc : dev_context) : Nat :=
  (devc.runlength_code_width + host_word_size - 1) / host_word_size

/-- `(uint32_t)((1ull << devc->runlength_code_width) - 1)` (line 314):
the cast truncates the 64-bit value to 32 bits. -/
def runlength_count_mask (devc : dev_context) : Nat :=
  (2 ^ devc.runlength_code_width - 1) % 2 ^ 32

/-! ### Run-length decoder: `ipdbg_la_runlength_decode` (lines 294-366) -/

/-- The run-length code field of raw sample `i`: the inner loop of
lines 323-328, accumulating `runlength_code_width_bytes` buffer bytes
little-endian into the `uint32` `repeats[i]` with `|=` and `<<`.
Each step is reduced `% 2^32` as the accumulator is a `uint32`. -/
def rlc_field (devc : dev_context) (i : Nat) : Nat :=
  (List.range (runlength_code_width_bytes devc)).foldl
    (fun acc byte =>
      (acc |||
        byteAt devc.raw_sample_buf (i * raw_data_width_bytes devc + byte) <<<
          (byte * host_word_size)) % 2 ^ 32)
    0

/-- `repeats[i] &= runlength_count_mask; repeats[i] += 1;`
(lines 328-329); `repeats[i]` is a `uint32`, so the increment wraps
`% 2^32`. -/
def repeats (devc : dev_context) (i : Nat) : Nat :=
  ((rlc_field devc i &&& runlength_count_mask devc) + 1) % 2 ^ 32

/-- The accumulation loop of lines 323-333: for each raw sample, add
`repeats[i]` to `*total_samples` (second component) and, when
`i < raw_delay_value`, to `*delay_value` (first component).  The C
accumulators are `uint64`; sample counts never approach `2^64`, so they
are modelled as unbounded naturals. -/
def rl_counts (devc : dev_context) : Nat × Nat :=
  (List.range devc.limit_samples).foldl
    (fun dt i =>
      (if i < devc.delay_value then dt.1 + repeats devc i else dt.1,
       dt.2 + repeats devc i))
    (0, 0)

/-- The payload bytes of raw sample `i` written by the inner byte loop
of lines 344-357: when the run-length code width is not a multiple of 8
the payload is reassembled from two adjacent source bytes (the second
read only `if (byte < (raw_data_width_bytes - 1))`) and shifted right by
`runlength_code_width % host_word_size`; otherwise the payload bytes are
taken directly after the code bytes.  The final store masks with
`& 0x00ff`. -/
def sample_payload (devc : dev_context) (i : Nat) : List Nat :=
  (List.range (data_width_bytes devc)).map (fun byte =>
    (if devc.runlength_code_width % host_word_size ≠ 0 then
      (if byte < raw_data_width_bytes devc - 1 then
        byteAt devc.raw_sample_buf
            (i * raw_data_width_bytes devc + runlength_code_width_bytes devc -
              1 + byte) |||
          byteAt devc.raw_sample_buf
              (i * raw_data_width_bytes devc + runlength_code_width_bytes devc +
                byte) <<< 8
      else
        byteAt devc.raw_sample_buf
          (i * raw_data_width_bytes devc + runlength_code_width_bytes devc - 1 +
            byte)) >>> (devc.runlength_code_width % host_word_size)
    else
      byteAt devc.raw_sample_buf
        (i * raw_data_width_bytes devc + runlength_code_width_bytes devc +
          byte)) &&& 0xFF)

/-- The repeat loop of lines 358-361: `repeats[i] - 1` times, append a
copy of the last `data_width_bytes` bytes of the output
(`memcpy(run_buffer, run_buffer - data_width_bytes, data_width_bytes)`). -/
def rep_copies (dwb : Nat) : Nat → List Nat → List Nat
  | 0, out => out
  | n + 1, out => rep_copies dwb n (out ++ out.drop (out.length - dwb))

/-- The expansion loop of lines 343-362: for each raw sample, write its
payload once, then `repeats[i] - 1` copies of it. -/
def rl_expand (devc : dev_context) : List Nat :=
  (List.range devc.limit_samples).foldl
    (fun out i =>
      rep_copies (data_width_bytes devc) (repeats devc i - 1)
        (out ++ sample_payload devc i))
    []

/-- `ipdbg_la_runlength_decode` (lines 294-366), returning
`(*delay_value, *total_samples, devc->raw_sample_buf)`.  When
`runlength_code_width == 0` the inputs pass through unchanged
(lines 297-301); otherwise the counters come from the accumulation loop
and the buffer is replaced by the expansion.  Allocation is assumed to
succeed (the claims do not concern the allocation-failure path). -/
def ipdbg_la_runlength_decode (devc : dev_context) : Nat × Nat × List Nat :=
  if devc.runlength_code_width = 0 then
    (devc.delay_value, devc.limit_samples, devc.raw_sample_buf)
  else
    ((rl_counts devc).1, (rl_counts devc).2, rl_expand devc)

/-- The little-endian value of the `runlength_code_width_bytes` code
bytes of raw sample `i`, as a plain positional sum; the claim describes
the run-length field as the low `runlength_code_width` bits of this
value. -/
def le_field_value (devc : dev_context) (i : Nat) : Nat :=
  ((List.range (runlength_code_width_bytes devc)).map
    (fun b =>
      byteAt devc.raw_sample_buf (i * raw_data_width_bytes devc + b) *
        2 ^ (b * host_word_size))).sum

/-! ### Trigger translation: `ipdbg_la_convert_trigger` (lines 224-292) -/

/-- The five logic trigger match types handled by the translation
(`SR_TRIGGER_ZERO/ONE/RISING/FALLING/EDGE`). -/
inductive trigger_match_kind where
  | sr_trigger_one
  | sr_trigger_zero
  | sr_trigger_rising
  | sr_trigger_falling
  | sr_trigger_edge
deriving DecidableEq

/-- One `struct sr_trigger_match` together with its channel's index and
enabled flag (the code reads `match->channel->index` and
`match->channel->enabled`). -/
structure sr_trigger_match where
  channel_index : Nat
  channel_enabled : Bool
  kind : trigger_match_kind
deriving DecidableEq

/-- `vec[byte_idx] |= match_bit` on a byte vector. -/
def set_vec_bit (v : List Nat) (byte_idx bit : Nat) : List Nat :=
  v.set byte_idx (v.getD byte_idx 0 ||| bit)

/-- `vec[byte_idx] &= ~match_bit` on a `uint8` vector: the complement is
taken within the byte, so the conjunction is with `0xFF ^^^ bit`. -/
def clear_vec_bit (v : List Nat) (byte_idx bit : Nat) : List Nat :=
  v.set byte_idx (v.getD byte_idx 0 &&& (0xFF ^^^ bit))

/-- The per-match body of the double loop (lines 251-288):
`byte_idx = index / 8`, `match_bit = 1 << (index % 8)`; disabled
channels are skipped; each of the five match types performs its fixed
combination of bit sets and clears. -/
def apply_trigger_match (devc : dev_context) (m : sr_trigger_match) : dev_context :=
  if !m.channel_enabled then devc
  else
    let byte_idx := m.channel_index / 8
    let match_bit := 1 <<< (m.channel_index % 8)
    match m.kind with
    | .sr_trigger_one =>
        { devc with
          trigger_value := set_vec_bit devc.trigger_value byte_idx match_bit,
          trigger_mask := set_vec_bit devc.trigger_mask byte_idx match_bit,
          trigger_mask_last :=
            clear_vec_bit devc.trigger_mask_last byte_idx match_bit,
          trigger_edge_mask :=
            clear_vec_bit devc.trigger_edge_mask byte_idx match_bit }
    | .sr_trigger_zero =>
        { devc with
          trigger_value := clear_vec_bit devc.trigger_value byte_idx match_bit,
          trigger_mask := set_vec_bit devc.trigger_mask byte_idx match_bit,
          trigger_mask_last :=
            clear_vec_bit devc.trigger_mask_last byte_idx match_bit,
          trigger_edge_mask :=
            clear_vec_bit devc.trigger_edge_mask byte_idx match_bit }
    | .sr_trigger_rising =>
        { devc with
          trigger_value := set_vec_bit devc.trigger_value byte_idx match_bit,
          trigger_value_last :=
            clear_vec_bit devc.trigger_value_last byte_idx match_bit,
          trigger_mask := set_vec_bit devc.trigger_mask byte_idx match_bit,
          trigger_mask_last :=
            set_vec_bit devc.trigger_mask_last byte_idx match_bit,
          trigger_edge_mask :=
            clear_vec_bit devc.trigger_edge_mask byte_idx match_bit }
    | .sr_trigger_falling =>
        { devc with
          trigger_value := clear_vec_bit devc.trigger_value byte_idx match_bit,
          trigger_value_last :=
            set_vec_bit devc.trigger_value_last byte_idx match_bit,
          trigger_mask := set_vec_bit devc.trigger_mask byte_idx match_bit,
          trigger_mask_last :=
            set_vec_bit devc.trigger_mask_last byte_idx match_bit,
          trigger_edge_mask :=
            clear_vec_bit devc.trigger_edge_mask byte_idx match_bit }
    | .sr_trigger_edge =>
        { devc with
          trigger_mask := clear_vec_bit devc.trigger_mask byte_idx match_bit,
          trigger_mask_last :=
            clear_vec_bit devc.trigger_mask_last byte_idx match_bit,
          trigger_edge_mask :=
            set_vec_bit devc.trigger_edge_mask byte_idx match_bit }

/-- `ipdbg_la_convert_trigger` (lines 224-292): reset the acquisition
state, zero all five trigger vectors (lines 238-244), then, when a
trigger specification exists, walk its stages and their matches in
order. -/
def ipdbg_la_convert_trigger (devc : dev_context)
    (trigger : Option (List (List sr_trigger_match))) : dev_context :=
  let dwb := data_width_bytes devc
  let devc0 := { devc with
    num_transfers := 0, raw_sample_buf := [],
    trigger_mask := List.replicate dwb 0,
    trigger_value := List.replicate dwb 0,
    trigger_mask_last := List.replicate dwb 0,
    trigger_value_last := List.replicate dwb 0,
    trigger_edge_mask := List.replicate dwb 0 }
  match trigger with
  | none => devc0
  | some stages =>
      stages.foldl (fun d stage => stage.foldl apply_trigger_match d) devc0

/-- The bit of channel `c` in a trigger vector: byte `c / 8`, bit
`c % 8`. -/
def vec_bit (v : List Nat) (c : Nat) : Bool :=
  (v.getD (c / 8) 0).testBit (c % 8)

/-! The claim's per-match-type table, read off as one action per vector:
how an enabled match of the given type transforms that channel's bit
(`set`, `clear`, or leave). -/

def mask_bit_action : trigger_match_kind → Bool → Bool
  | .sr_trigger_edge, _ => false
  | _, _ => true

def value_bit_action : trigger_match_kind → Bool → Bool
  | .sr_trigger_one, _ => true
  | .sr_trigger_zero, _ => false
  | .sr_trigger_rising, _ => true
  | .sr_trigger_falling, _ => false
  | .sr_trigger_edge, b => b

def value_last_bit_action : trigger_match_kind → Bool → Bool
  | .sr_trigger_one, b => b
  | .sr_trigger_zero, b => b
  | .sr_trigger_rising, _ => false
  | .sr_trigger_falling, _ => true
  | .sr_trigger_edge, b => b

def mask_last_bit_action : trigger_match_kind → Bool → Bool
  | .sr_trigger_rising, _ => true
  | .sr_trigger_falling, _ => true
  | _, _ => false

def edge_mask_bit_action : trigger_match_kind → Bool → Bool
  | .sr_trigger_edge, _ => true
  | _, _ => false

/-- The enabled matches of the specification that target channel `c`,
in traversal order. -/
def enabled_matches_on (trigger : Option (List (List sr_trigger_match)))
    (c : Nat) : List sr_trigger_match :=
  (trigger.getD []).flatten.filter
    (fun m => m.channel_enabled && m.channel_index == c)

/-! ### Acquisition callback: `ipdbg_la_receive_data` (lines 368-454)

The callback either accumulates one read's worth of bytes or, once the
guard `num_transfers < limit_samples_max * raw_data_width_bytes` fails,
runs the run-length decode and delivers.  The model takes the bytes
returned by the single `ipdbg_la_tcp_receive` call and returns the
next state or the decode results.  The initial buffer allocation
(lines 390-397) and the delivery packets are outside the modelled
state. -/

inductive receive_result where
  | accumulated (devc : dev_context)
  | decoded (delay_value total_samples : Nat) (buf : List Nat)
deriving DecidableEq

def is_decoded : receive_result → Bool
  | .decoded _ _ _ => true
  | .accumulated _ => false

/-- `memcpy(&devc->raw_sample_buf[off], src, src.length)`. -/
def memcpy_at (dst : List Nat) (off : Nat) (src : List Nat) : List Nat :=
  dst.take off ++ src ++ dst.drop (off + src.length)

/-- The `int num_move` of lines 404-410: the whole read if it fits the
`limit_samples * raw_data_width_bytes` budget, else the remaining
budget.  The C code casts the `uint64` difference to `int`; within the
value range reachable here it is the exact integer difference. -/
def num_move (devc : dev_context) (recd : Nat) : Int :=
  if devc.num_transfers + recd ≤
      devc.limit_samples * raw_data_width_bytes devc then
    (recd : Int)
  else
    (devc.limit_samples * raw_data_width_bytes devc : Int) -
      (devc.num_transfers : Int)

/-- One invocation of `ipdbg_la_receive_data` (lines 368-454) on the
bytes delivered by its single read.  While
`num_transfers < limit_samples_max * raw_data_width_bytes` (line 398,
note: `limit_samples_max`), a positive read copies `num_move` bytes into
the buffer at offset `num_transfers` (only `if (num_move > 0)`) and
advances `num_transfers` by the full read size; otherwise the
run-length decode runs. -/
def ipdbg_la_receive_data (devc : dev_context) (incoming : List Nat) :
    receive_result :=
  if devc.num_transfers <
      devc.limit_samples_max * raw_data_width_bytes devc then
    if 0 < incoming.length then
      .accumulated { devc with
        raw_sample_buf :=
          if 0 < num_move devc incoming.length then
            memcpy_at devc.raw_sample_buf devc.num_transfers
              (incoming.take (num_move devc incoming.length).toNat)
          else devc.raw_sample_buf,
        num_transfers := devc.num_transfers + incoming.length }
    else .accumulated devc
  else
    .decoded (ipdbg_la_runlength_decode devc).1
      (ipdbg_la_runlength_decode devc).2.1
      (ipdbg_la_runlength_decode devc).2.2

/-! ### Trigger serialization: `ipdbg_la_send_trigger` (lines 502-568)

The model is the byte stream handed to the socket: for each vector a
3-opcode preamble sent raw, then the loop
`for i < data_width_bytes: send_escaping(vec + data_width_bytes-1-i, 1)`. -/

def ipdbg_la_send_trigger (devc : dev_context) : List Nat :=
  [CMD_CFG_TRIGGER, CMD_TRIG_MASKS, CMD_TRIG_MASK] ++
    ((List.range (data_width_bytes devc)).map (fun i =>
      send_escaping
        [devc.trigger_mask.getD (data_width_bytes devc - 1 - i) 0])).flatten ++
  [CMD_CFG_TRIGGER, CMD_TRIG_MASKS, CMD_TRIG_VALUE] ++
    ((List.range (data_width_bytes devc)).map (fun i =>
      send_escaping
        [devc.trigger_value.getD (data_width_bytes devc - 1 - i) 0])).flatten ++
  [CMD_CFG_TRIGGER, CMD_TRIG_MASKS_LAST, CMD_TRIG_MASK_LAST] ++
    ((List.range (data_width_bytes devc)).map (fun i =>
      send_escaping
        [devc.trigger_mask_last.getD
          (data_width_bytes devc - 1 - i) 0])).flatten ++
  [CMD_CFG_TRIGGER, CMD_TRIG_MASKS_LAST, CMD_TRIG_VALUE_LAST] ++
    ((List.range (data_width_bytes devc)).map (fun i =>
      send_escaping
        [devc.trigger_value_last.getD
          (data_width_bytes devc - 1 - i) 0])).flatten ++
  [CMD_CFG_TRIGGER, CMD_TRIG_SELECT_EDGE_MASK, CMD_TRIG_SET_EDGE_MASK] ++
    ((List.range (data_width_bytes devc)).map (fun i =>
      send_escaping
        [devc.trigger_edge_mask.getD
          (data_width_bytes devc - 1 - i) 0])).flatten

/-! ### Sample-rate query: `ipdbg_la_set_samplerate` (lines 705-738) -/

/-- Models one `(buf[k] << s) & mask` term of lines 730-737.  `buf[k]`
is promoted to a 32-bit `int` before the shift; for `s ≥ 32` the shift
is undefined in C and is modelled with the prevalent hardware behaviour
(shift count reduced mod 32).  The possibly negative 32-bit result is
sign-extended when conjoined with the wider mask constant. -/
def samplerate_term (x s mask : Nat) : Nat :=
  let v32 := (x <<< (s % 32)) % 2 ^ 32
  let v64 := if v32 < 2 ^ 31 then v32 else v32 + (2 ^ 64 - 2 ^ 32)
  v64 &&& mask

/-- The assembly of `devc->cur_samplerate` from the 8 received bytes
(lines 730-737). -/
def samplerate_from_bytes (buf : List Nat) : Nat :=
  byteAt buf 0 &&& 0xFF |||
  samplerate_term (byteAt buf 1) 8 0xFF00 |||
  samplerate_term (byteAt buf 2) 16 0xFF0000 |||
  samplerate_term (byteAt buf 3) 24 0xFF000000 |||
  samplerate_term (byteAt buf 4) 32 0xFF00000000 |||
  samplerate_term (byteAt buf 5) 40 0xFF0000000000 |||
  samplerate_term (byteAt buf 6) 48 0xFF000000000000 |||
  samplerate_term (byteAt buf 7) 56 0xFF00000000000000

/-- `ipdbg_la_set_samplerate` (lines 705-738): `none` models "sample
rate left unset" (feature bit clear, or the 8-byte block read failed,
the latter modelled by `recv = none`); otherwise the rate is assembled
from the received bytes. -/
def ipdbg_la_set_samplerate (features : Nat) (recv : Option (List Nat)) :
    Option Nat :=
  if features &&& FEATURE_AUGMENTER_SAMPLERATE_ENABLED = 0 then none
  else
    match recv with
    | none => none
    | some buf => some (samplerate_from_bytes buf)

/-! ### Delay computation: `ipdbg_la_send_delay` (lines 479-499)

Line 482 computes
`devc->delay_value = ((devc->limit_samples - 1) / 100.0) * devc->capture_ratio;`
in `double`.  Binary64 values are modelled as exact rationals: a result
is rounded to 53 significant bits with round-to-nearest, ties-to-even
after the conversion of each `uint64` operand and after each arithmetic
operation, and the final assignment to the `uint64` field truncates
toward zero.  The exponent range is unbounded in the model, which is
exact for the magnitudes a sample-count computation can produce (no
overflow or subnormals). -/

/-- Round a rational to the nearest integer, ties to even. -/
def rne (s : ℚ) : ℤ :=
  if s - ⌊s⌋ < 1 / 2 then ⌊s⌋
  else if 1 / 2 < s - ⌊s⌋ then ⌊s⌋ + 1
  else if ⌊s⌋ % 2 = 0 then ⌊s⌋ else ⌊s⌋ + 1

/-- Fuel-driven base-2 logarithm (structurally recursive so that it
reduces inside the kernel). -/
def log2fuel : Nat → Nat → Nat
  | 0, _ => 0
  | fuel + 1, n => if n < 2 then 0 else log2fuel fuel (n / 2) + 1

/-- `natlog2 n = ⌊log₂ n⌋` for `n > 0`. -/
def natlog2 (n : Nat) : Nat := log2fuel n n

/-- `ceillog2 n = ⌈log₂ n⌉` for `n > 0`. -/
def ceillog2 (n : Nat) : Nat := if n ≤ 1 then 0 else natlog2 (n - 1) + 1

/-- The binade exponent of a positive rational: the `e` with
`2 ^ e ≤ q < 2 ^ (e + 1)`. -/
def binade (q : ℚ) : ℤ :=
  if 1 ≤ q then (natlog2 ⌊q⌋.toNat : ℤ) else -(ceillog2 ⌈q⁻¹⌉.toNat : ℤ)

/-- Round a nonnegative rational to the binary64 grid: scale into the
53-bit significand range of its binade, round to nearest (ties to
even), and scale back. -/
def round_double (q : ℚ) : ℚ :=
  if q ≤ 0 then 0
  else (rne (q / 2 ^ (binade q - 52)) : ℚ) * 2 ^ (binade q - 52)

/-- The `delay_value` stored by `ipdbg_la_send_delay` (line 482):
`limit_samples - 1` converted to `double`, divided by the exact
constant `100.0`, multiplied by the converted `capture_ratio`, then
truncated into the `uint64` field.  (For `limit_samples = 0` the C
subtraction would wrap; the claims only concern `limit_samples ≥ 1`.) -/
def ipdbg_la_send_delay_value (limit_samples capture_percent : Nat) : Nat :=
  (⌊round_double
      (round_double (round_double ((limit_samples - 1 : Nat) : ℚ) / 100) *
        round_double ((capture_percent : Nat) : ℚ))⌋).toNat

/-! ### Concrete device states used as witnesses and counterexamples -/

/-- Pass-through configuration: no run-length coder. -/
def devc_passthrough : dev_context :=
  { data_width := 8, runlength_code_width := 0, limit_samples := 3,
    limit_samples_max := 4, delay_value := 1, num_transfers := 0,
    raw_sample_buf := [1, 2, 3], trigger_mask := [], trigger_value := [],
    trigger_mask_last := [], trigger_value_last := [],
    trigger_edge_mask := [] }

/-- The spec's run-length example: `runlength_code_width = 8`, two raw
samples with code bytes `[0, 2]` and payload bytes `[0xAB, 0xCD]`. -/
def devc_rl_example : dev_context :=
  { data_width := 8, runlength_code_width := 8, limit_samples := 2,
    limit_samples_max := 2, delay_value := 0, num_transfers := 0,
    raw_sample_buf := [0x00, 0xAB, 0x02, 0xCD], trigger_mask := [],
    trigger_value := [], trigger_mask_last := [], trigger_value_last := [],
    trigger_edge_mask := [] }

/-- A 32-bit run-length code width with an all-ones code field: the
`uint32` increment `repeats[i] += 1` wraps to 0. -/
def devc_w32_total : dev_context :=
  { data_width := 8, runlength_code_width := 32, limit_samples := 1,
    limit_samples_max := 1, delay_value := 0, num_transfers := 0,
    raw_sample_buf := [0xFF, 0xFF, 0xFF, 0xFF, 0xAB], trigger_mask := [],
    trigger_value := [], trigger_mask_last := [], trigger_value_last := [],
    trigger_edge_mask := [] }

/-- Same 32-bit wrap-around situation, used for the repeat-count bound
claim. -/
def devc_w32_repeat : dev_context :=
  { data_width := 8, runlength_code_width := 32, limit_samples := 1,
    limit_samples_max := 1, delay_value := 0, num_transfers := 0,
    raw_sample_buf := [0xFF, 0xFF, 0xFF, 0xFF, 0x00], trigger_mask := [],
    trigger_value := [], trigger_mask_last := [], trigger_value_last := [],
    trigger_edge_mask := [] }

/-- Mid-acquisition state: 1 of the 2-byte keep budget transferred,
device memory (max budget) 4 bytes. -/
def devc_recv_example : dev_context :=
  { data_width := 8, runlength_code_width := 0, limit_samples := 2,
    limit_samples_max := 4, delay_value := 0, num_transfers := 1,
    raw_sample_buf := [0, 0, 0, 0], trigger_mask := [], trigger_value := [],
    trigger_mask_last := [], trigger_value_last := [],
    trigger_edge_mask := [] }

/-- Boundary state: the transfer count equals the
`limit_samples * raw_data_width_bytes` keep budget but is still below
the `limit_samples_max` device-memory budget. -/
def devc_recv_boundary : dev_context :=
  { data_width := 8, runlength_code_width := 0, limit_samples := 1,
    limit_samples_max := 2, delay_value := 0, num_transfers := 1,
    raw_sample_buf := [5, 0], trigger_mask := [], trigger_value := [],
    trigger_mask_last := [], trigger_value_last := [],
    trigger_edge_mask := [] }

/-- A 16-channel device with trigger vectors containing the RESET and
ESCAPE byte values, to exercise serialization and escaping. -/
def devc_send_example : dev_context :=
  { data_width := 16, runlength_code_width := 0, limit_samples := 4,
    limit_samples_max := 4, delay_value := 0, num_transfers := 0,
    raw_sample_buf := [], trigger_mask := [0xEE, 0x01],
    trigger_value := [0x55, 0x02], trigger_mask_last := [0x12, 0x34],
    trigger_value_last := [0x00, 0x00], trigger_edge_mask := [0xAB, 0xCD] }

/-- An 8-channel device with stale trigger state, used to exercise the
trigger translation. -/
def devc_trig_example : dev_context :=
  { data_width := 8, runlength_code_width := 0, limit_samples := 4,
    limit_samples_max := 4, delay_value := 0, num_transfers := 7,
    raw_sample_buf := [9], trigger_mask := [0xFF], trigger_value := [0xFF],
    trigger_mask_last := [0xFF], trigger_value_last := [0xFF],
    trigger_edge_mask := [0xFF] }

/-- A single-stage trigger specification: one enabled RISING match on
channel 5 (the spec's translation example). -/
def trig_rising5 : Option (List (List sr_trigger_match)) :=
  some [[{ channel_index := 5, channel_enabled := true,
           kind := .sr_trigger_rising }]]

/-! ### Theorems -/

theorem byteAt_lt (buf : List Nat) (idx : Nat) : byteAt buf idx < 256 :=
  Nat.mod_lt _ (by norm_num)

theorem or_shift_add (S b k : Nat) (hS : S < 2 ^ k) :
    S ||| b <<< k = S + b * 2 ^ k := by
  calc S ||| b <<< k = b * 2 ^ k ||| S := by rw [Nat.shiftLeft_eq, Nat.or_comm]
    _ = 2 ^ k * b ||| S := by rw [Nat.mul_comm]
    _ = 2 ^ k * b + S := (Nat.mul_add_lt_is_or hS b).symm
    _ = S + b * 2 ^ k := by rw [Nat.mul_comm, Nat.add_comm]

theorem add_byte_lt (S b k : Nat) (hS : S < 2 ^ k) (hb : b < 256) :
    S + b * 2 ^ k < 2 ^ (k + 8) := by
  have h1 : 2 ^ (k + 8) = 2 ^ k * 256 := by rw [pow_add]; norm_num
  have hb2 : b * 2 ^ k ≤ 255 * 2 ^ k := Nat.mul_le_mul_right _ (by omega)
  omega

/-- The little-endian `|=`-accumulation of code bytes equals the
positional sum, and the sum stays below `2 ^ (8 n)`, as long as at most
four bytes (32 accumulator bits) are involved. -/
theorem rlc_field_partial (devc : dev_context) (i : Nat) :
    ∀ n, n * 8 ≤ 32 →
      ((List.range n).foldl
          (fun acc byte =>
            (acc |||
              byteAt devc.raw_sample_buf (i * raw_data_width_bytes devc + byte) <<<
                (byte * host_word_size)) % 2 ^ 32) 0 =
        ((List.range n).map
          (fun b =>
            byteAt devc.raw_sample_buf (i * raw_data_width_bytes devc + b) *
              2 ^ (b * host_word_size))).sum) ∧
      ((List.range n).map
        (fun b =>
          byteAt devc.raw_sample_buf (i * raw_data_width_bytes devc + b) *
            2 ^ (b * host_word_size))).sum < 2 ^ (n * 8) := by
  intro n
  simp only [host_word_size]
  induction n with
  | zero => intro _; simp
  | succ n ih =>
      intro h
      obtain ⟨ih1, ih2⟩ := ih (by omega)
      have hb := byteAt_lt devc.raw_sample_buf (i * raw_data_width_bytes devc + n)
      have hsum := add_byte_lt _ _ (n * 8) ih2 hb
      have hexp : (n + 1) * 8 = n * 8 + 8 := by ring
      constructor
      · rw [List.range_succ, List.foldl_append, List.map_append, List.sum_append,
          ih1]
        simp only [List.foldl_cons, List.foldl_nil, List.map_cons, List.map_nil,
          List.sum_cons, List.sum_nil]
        rw [or_shift_add _ _ _ ih2, Nat.mod_eq_of_lt]
        · omega
        · exact lt_of_lt_of_le hsum (by
            calc 2 ^ (n * 8 + 8) = 2 ^ ((n + 1) * 8) := by rw [hexp]
              _ ≤ 2 ^ 32 := Nat.pow_le_pow_right (by norm_num) h)
      · rw [List.range_succ, List.map_append, List.sum_append]
        simp only [List.map_cons, List.map_nil, List.sum_cons, List.sum_nil]
        rw [hexp]
        omega

/-- Under a code width of at most 31 bits, the `uint32` repeat counter
never wraps: `repeats[i]` is the low-`w`-bit little-endian field plus
one. -/
theorem repeats_eq (devc : dev_context)
    (hw : 0 < devc.runlength_code_width)
    (h31 : devc.runlength_code_width ≤ 31) (i : Nat) :
    repeats devc i =
      le_field_value devc i % 2 ^ devc.runlength_code_width + 1 := by
  have hbytes : runlength_code_width_bytes devc * 8 ≤ 32 := by
    have : runlength_code_width_bytes devc ≤ 4 := by
      unfold runlength_code_width_bytes host_word_size
      omega
    omega
  obtain ⟨hfold, _⟩ := rlc_field_partial devc i (runlength_code_width_bytes devc)
    hbytes
  have hfield : rlc_field devc i = le_field_value devc i := by
    rw [rlc_field, le_field_value, hfold]
  have hpow : 2 ^ devc.runlength_code_width ≤ 2 ^ 31 :=
    Nat.pow_le_pow_right (by norm_num) h31
  have hmask : runlength_count_mask devc = 2 ^ devc.runlength_code_width - 1 := by
    rw [runlength_count_mask, Nat.mod_eq_of_lt]
    have : (2 : Nat) ^ 31 < 2 ^ 32 := by norm_num
    omega
  rw [repeats, hfield, hmask, Nat.and_pow_two_sub_one_eq_mod, Nat.mod_eq_of_lt]
  have hlt : le_field_value devc i % 2 ^ devc.runlength_code_width <
      2 ^ devc.runlength_code_width :=
    Nat.mod_lt _ (Nat.pos_pow_of_pos _ (by norm_num))
  have : (2 : Nat) ^ 31 < 2 ^ 32 := by norm_num
  omega

/-- The accumulation loop computes, from any starting pair, the running
sums of the repeat counts (second component) and of the repeat counts of
the pre-delay samples (first component). -/
theorem rl_counts_fold (devc : dev_context) (l : List Nat) :
    ∀ d t : Nat,
      l.foldl
        (fun dt i =>
          (if i < devc.delay_value then dt.1 + repeats devc i else dt.1,
           dt.2 + repeats devc i)) (d, t) =
      (d + (l.map (fun i =>
          if i < devc.delay_value then repeats devc i else 0)).sum,
       t + (l.map (repeats devc)).sum) := by
  induction l with
  | nil => intro d t; simp
  | cons x xs ih =>
      intro d t
      simp only [List.foldl_cons, List.map_cons, List.sum_cons]
      by_cases hx : x < devc.delay_value
      · rw [if_pos hx, ih, if_pos hx]
        simp only [Prod.mk.injEq]
        exact ⟨by omega, by omega⟩
      · rw [if_neg hx, ih, if_neg hx]
        simp only [Prod.mk.injEq]
        exact ⟨by omega, by omega⟩

/-- Restricting the guarded sum to the pre-delay range. -/
theorem delay_sum_eq (devc : dev_context)
    (hd : devc.delay_value ≤ devc.limit_samples) :
    ((List.range devc.limit_samples).map (fun i =>
        if i < devc.delay_value then repeats devc i else 0)).sum =
      ((List.range devc.delay_value).map (repeats devc)).sum := by
  have hsplit : devc.limit_samples =
      devc.delay_value + (devc.limit_samples - devc.delay_value) := by omega
  rw [hsplit, List.range_add, List.map_append, List.sum_append]
  have h1 : (List.range devc.delay_value).map (fun i =>
      if i < devc.delay_value then repeats devc i else 0) =
      (List.range devc.delay_value).map (repeats devc) := by
    apply List.map_congr_left
    intro a ha
    rw [if_pos (List.mem_range.mp ha)]
  have h2 : (((List.range (devc.limit_samples - devc.delay_value)).map
      (devc.delay_value + ·)).map (fun i =>
        if i < devc.delay_value then repeats devc i else 0)).sum = 0 := by
    apply List.sum_eq_zero
    intro x hx
    simp only [List.mem_map, List.mem_range] at hx
    obtain ⟨j, ⟨k, _, hk⟩, hj⟩ := hx
    rw [← hj, ← hk, if_neg (by omega)]
  rw [h1, h2, Nat.add_zero]

/-- Appending `n` copies of the final `dwb`-byte block reproduces
run-length replication. -/
theorem rep_copies_eq (dwb : Nat) (p : List Nat) (hp : p.length = dwb) :
    ∀ (n : Nat) (out : List Nat),
      rep_copies dwb n (out ++ p) =
        out ++ (List.replicate (n + 1) p).flatten := by
  intro n
  induction n with
  | zero => intro out; simp [rep_copies]
  | succ n ih =>
      intro out
      have hlen : (out ++ p).length - dwb = out.length := by
        rw [List.length_append, hp]; omega
      rw [rep_copies, hlen, List.drop_left, ih (out ++ p), List.append_assoc]
      simp [List.replicate_succ]

theorem sample_payload_length (devc : dev_context) (i : Nat) :
    (sample_payload devc i).length = data_width_bytes devc := by
  simp [sample_payload]

/-- The expansion loop, from any prefix, appends each payload exactly
`repeats[i]` times in raw-sample order. -/
theorem rl_expand_fold (devc : dev_context) (l : List Nat)
    (hrep : ∀ i ∈ l, 1 ≤ repeats devc i) :
    ∀ out : List Nat,
      l.foldl
        (fun out i =>
          rep_copies (data_width_bytes devc) (repeats devc i - 1)
            (out ++ sample_payload devc i)) out =
      out ++ (l.map (fun i =>
        (List.replicate (repeats devc i) (sample_payload devc i)).flatten)).flatten := by
  induction l with
  | nil => intro out; simp
  | cons x xs ih =>
      intro out
      simp only [List.foldl_cons]
      rw [rep_copies_eq (data_width_bytes devc) (sample_payload devc x)
          (sample_payload_length devc x) (repeats devc x - 1) out,
        Nat.sub_add_cancel (hrep x (List.mem_cons_self x xs)),
        ih (fun i hi => hrep i (List.mem_cons_of_mem x hi)),
        List.map_cons, List.flatten_cons, List.append_assoc]

/-- C2 (amended to code widths of at most 31 bits, the width of the
`uint32` repeat counter): for every raw buffer with
`0 < runlength_code_width ≤ 31` and a raw delay within the raw sample
count, `ipdbg_la_runlength_decode` computes `repeats[i]` as the
low-`w`-bit little-endian run-length field plus one, returns
`total_samples = Σ repeats[i]`, `delay_value = Σ_{i < raw delay}
repeats[i]`, and an output buffer in which each raw sample's
`data_width_bytes`-wide payload (extracted by `sample_payload`, shifted
right by `w mod 8` bits when `w` is not byte-aligned) appears exactly
`repeats[i]` consecutive times, in raw-sample order. -/
theorem runlength_decode_spec (devc : dev_context)
    (hw : 0 < devc.runlength_code_width)
    (h31 : devc.runlength_code_width ≤ 31)
    (hd : devc.delay_value ≤ devc.limit_samples) :
    ipdbg_la_runlength_decode devc =
      (((List.range devc.delay_value).map (fun i =>
          le_field_value devc i % 2 ^ devc.runlength_code_width + 1)).sum,
       ((List.range devc.limit_samples).map (fun i =>
          le_field_value devc i % 2 ^ devc.runlength_code_width + 1)).sum,
       ((List.range devc.limit_samples).map (fun i =>
          (List.replicate (le_field_value devc i % 2 ^ devc.runlength_code_width + 1)
            (sample_payload devc i)).flatten)).flatten) := by
  have hrepeq : ∀ i, repeats devc i =
      le_field_value devc i % 2 ^ devc.runlength_code_width + 1 :=
    repeats_eq devc hw h31
  have hcounts := rl_counts_fold devc (List.range devc.limit_samples) 0 0
  have hdelay := delay_sum_eq devc hd
  have hexp := rl_expand_fold devc (List.range devc.limit_samples)
    (fun i _ => by rw [hrepeq i]; omega) []
  rw [ipdbg_la_runlength_decode, if_neg (by omega)]
  refine Prod.ext ?_ (Prod.ext ?_ ?_)
  · show (rl_counts devc).1 = _
    rw [rl_counts, hcounts]
    simp only [Nat.zero_add]
    rw [hdelay]
    congr 1
    exact List.map_congr_left (fun i _ => hrepeq i)
  · show (rl_counts devc).2 = _
    rw [rl_counts, hcounts]
    simp only [Nat.zero_add]
    congr 1
    exact List.map_congr_left (fun i _ => hrepeq i)
  · show rl_expand devc = _
    rw [rl_expand, hexp, List.nil_append]
    congr 1
    exact List.map_congr_left (fun i _ => by rw [hrepeq i])

/-- Witness for C2 at the spec's example: code width 8, raw samples
`(code 0, payload 0xAB)` and `(code 2, payload 0xCD)` expand to
`[0xAB, 0xCD, 0xCD, 0xCD]` with `total_samples = 4`. -/
theorem runlength_decode_spec_witness :
    (0 < devc_rl_example.runlength_code_width ∧
      devc_rl_example.runlength_code_width ≤ 31 ∧
      devc_rl_example.delay_value ≤ devc_rl_example.limit_samples) ∧
    ipdbg_la_runlength_decode devc_rl_example = (0, 4, [0xAB, 0xCD, 0xCD, 0xCD]) :=
  ⟨⟨by decide, by decide, by decide⟩, by
    rw [runlength_decode_spec devc_rl_example (by decide) (by decide) (by decide)]
    decide⟩

/-- C2 counterexample as stated: at code width `w = 32` (which the claim
admits, requiring only `w > 0`) with an all-ones code field, the
`uint32` counter computes `repeats[0] = (2^32 - 1) + 1 = 0` instead of
the claimed `field + 1 = 2^32`, so `total_samples` is 0, not the claimed
sum. -/
theorem runlength_decode_cex :
    0 < devc_w32_total.runlength_code_width ∧
    (ipdbg_la_runlength_decode devc_w32_total).2.1 = 0 ∧
    ((List.range devc_w32_total.limit_samples).map (fun i =>
        le_field_value devc_w32_total i %
          2 ^ devc_w32_total.runlength_code_width + 1)).sum = 2 ^ 32 ∧
    (ipdbg_la_runlength_decode devc_w32_total).2.1 ≠
      ((List.range devc_w32_total.limit_samples).map (fun i =>
        le_field_value devc_w32_total i %
          2 ^ devc_w32_total.runlength_code_width + 1)).sum := by
  refine ⟨by decide, by decide, by decide, by decide⟩

theorem map_sum_le (l : List Nat) (f g : Nat → Nat) (h : ∀ i ∈ l, f i ≤ g i) :
    (l.map f).sum ≤ (l.map g).sum := by
  induction l with
  | nil => simp
  | cons x xs ih =>
      simp only [List.map_cons, List.sum_cons]
      exact Nat.add_le_add (h x (List.mem_cons_self x xs))
        (ih (fun i hi => h i (List.mem_cons_of_mem x hi)))

/-- C10 (amended to code widths of at most 31 bits, the width of the
`uint32` repeat counter): every repeat count satisfies
`1 ≤ repeats[i] ≤ 2^w`, `total_samples` is at least the raw sample
count `limit_samples`, and (with `raw_delay_value ≤ limit_samples`) the
expanded `delay_value` is at most `total_samples`, so the post-trigger
segment length never underflows. -/
theorem runlength_decode_bounds (devc : dev_context)
    (hw : 0 < devc.runlength_code_width)
    (h31 : devc.runlength_code_width ≤ 31)
    (_hd : devc.delay_value ≤ devc.limit_samples) :
    (∀ i, 1 ≤ repeats devc i ∧
        repeats devc i ≤ 2 ^ devc.runlength_code_width) ∧
    devc.limit_samples ≤ (ipdbg_la_runlength_decode devc).2.1 ∧
    (ipdbg_la_runlength_decode devc).1 ≤ (ipdbg_la_runlength_decode devc).2.1 := by
  have hrepeq := repeats_eq devc hw h31
  have hbounds : ∀ i, 1 ≤ repeats devc i ∧
      repeats devc i ≤ 2 ^ devc.runlength_code_width := by
    intro i
    have hm : le_field_value devc i % 2 ^ devc.runlength_code_width <
        2 ^ devc.runlength_code_width :=
      Nat.mod_lt _ (Nat.pos_pow_of_pos _ (by norm_num))
    rw [hrepeq i]
    omega
  have hne : ¬devc.runlength_code_width = 0 := by omega
  refine ⟨hbounds, ?_, ?_⟩
  · rw [ipdbg_la_runlength_decode, if_neg hne]
    show devc.limit_samples ≤ (rl_counts devc).2
    rw [rl_counts, rl_counts_fold]
    have h1 : ∀ x ∈ (List.range devc.limit_samples).map (repeats devc),
        1 ≤ x := by
      intro x hx
      obtain ⟨i, _, rfl⟩ := List.mem_map.mp hx
      exact (hbounds i).1
    have h2 := List.length_le_sum_of_one_le _ h1
    simpa using h2
  · rw [ipdbg_la_runlength_decode, if_neg hne]
    show (rl_counts devc).1 ≤ (rl_counts devc).2
    rw [rl_counts, rl_counts_fold]
    simp only [Nat.zero_add]
    exact map_sum_le _ _ _ (fun i _ => by
      by_cases hi : i < devc.delay_value
      · rw [if_pos hi]
      · rw [if_neg hi]; omega)

/-- Witness for C10 at the spec's run-length example, with the bound
instantiated at raw sample 1 (code byte 2, so `repeats[1] = 3`). -/
theorem runlength_decode_bounds_witness :
    (0 < devc_rl_example.runlength_code_width ∧
      devc_rl_example.runlength_code_width ≤ 31 ∧
      devc_rl_example.delay_value ≤ devc_rl_example.limit_samples) ∧
    (1 ≤ repeats devc_rl_example 1 ∧
      repeats devc_rl_example 1 ≤ 2 ^ devc_rl_example.runlength_code_width) ∧
    devc_rl_example.limit_samples ≤
      (ipdbg_la_runlength_decode devc_rl_example).2.1 ∧
    (ipdbg_la_runlength_decode devc_rl_example).1 ≤
      (ipdbg_la_runlength_decode devc_rl_example).2.1 := by
  have h := runlength_decode_bounds devc_rl_example (by decide) (by decide)
    (by decide)
  exact ⟨⟨by decide, by decide, by decide⟩, h.1 1, h.2.1, h.2.2⟩

/-- C10 counterexample as stated: at code width 32 (admitted by the
claim, which only requires `w > 0`) the all-ones code field gives
`repeats[0] = 0 < 1` and `total_samples = 0 <` the raw sample count. -/
theorem runlength_decode_bounds_cex :
    0 < devc_w32_repeat.runlength_code_width ∧
    repeats devc_w32_repeat 0 = 0 ∧
    (ipdbg_la_runlength_decode devc_w32_repeat).2.1 <
      devc_w32_repeat.limit_samples := by
  refine ⟨by decide, by decide, by decide⟩

/-- C6: whenever `runlength_code_width = 0`, `ipdbg_la_runlength_decode`
returns success with `total_samples = limit_samples`, `delay_value`
equal to the configured raw delay value, and the raw sample buffer left
unchanged. -/
theorem runlength_decode_width_zero (devc : dev_context)
    (h : devc.runlength_code_width = 0) :
    ipdbg_la_runlength_decode devc =
      (devc.delay_value, devc.limit_samples, devc.raw_sample_buf) := by
  simp [ipdbg_la_runlength_decode, h]

/-- Witness for C6 at a concrete pass-through configuration. -/
theorem runlength_decode_width_zero_witness :
    devc_passthrough.runlength_code_width = 0 ∧
    ipdbg_la_runlength_decode devc_passthrough = (1, 3, [1, 2, 3]) :=
  ⟨rfl, by rw [runlength_decode_width_zero devc_passthrough rfl]; rfl⟩

theorem send_escaping_append (a b : List Nat) :
    send_escaping (a ++ b) = send_escaping a ++ send_escaping b := by
  induction a with
  | nil => simp [send_escaping]
  | cons x xs ih => simp [send_escaping, ih]

/-- C3: for every byte sequence the stream written by `send_escaping`
equals the input with each occurrence of `0xEE` (RESET) or `0x55`
(ESCAPE) replaced by the two-byte sequence `0x55` followed by the
original byte, every other byte passing through unchanged, in input
order. -/
theorem send_escaping_spec (data : List Nat) :
    send_escaping data =
      (data.map (fun b =>
        if b = CMD_RESET ∨ b = CMD_ESCAPE then [CMD_ESCAPE, b] else [b])).flatten := by
  induction data with
  | nil => simp [send_escaping]
  | cons x xs ih =>
      by_cases h1 : x = CMD_RESET
      · subst h1
        simp [send_escaping, ih, CMD_RESET, CMD_ESCAPE]
      · by_cases h2 : x = CMD_ESCAPE
        · subst h2
          simp [send_escaping, ih, CMD_RESET, CMD_ESCAPE]
        · simp [send_escaping, ih, h1, h2]

/-- C1 (code evaluated at the failing input): the identity bytes
`"AAAA"` match neither `"IDBG"` nor `"idbg"`, yet `ipdbg_la_request_id`
accepts them and reports version 1, because the rejection test
`if (!cmp_IDBG && !cmp_idbg)` requires the response to equal **both**
tokens at once and is therefore never taken.  The spec requires
`SR_ERR` (modelled `none`) here. -/
theorem request_id_accepts_garbage :
    [0x41, 0x41, 0x41, 0x41] ≠ id_upper ∧
    [0x41, 0x41, 0x41, 0x41] ≠ id_lower ∧
    ipdbg_la_request_id [0x41, 0x41, 0x41, 0x41] = some 1 ∧
    ipdbg_la_request_id id_upper = some 0 ∧
    ipdbg_la_request_id id_lower = some 1 := by
  refine ⟨by decide, by decide, by decide, by decide, by decide⟩

theorem getD_set_self (l : List Nat) :
    ∀ i a d : Nat, i < l.length → (l.set i a).getD i d = a := by
  induction l with
  | nil => intro i a d h; simp at h
  | cons x xs ih =>
      intro i a d h
      cases i with
      | zero => rfl
      | succ n =>
          rw [List.set_cons_succ, List.getD_cons_succ]
          exact ih n a d (by simpa using Nat.lt_of_succ_lt_succ h)

theorem getD_set_ne (l : List Nat) :
    ∀ i j a d : Nat, i ≠ j → (l.set i a).getD j d = l.getD j d := by
  induction l with
  | nil => intro i j a d _; simp
  | cons x xs ih =>
      intro i j a d h
      cases i with
      | zero =>
          cases j with
          | zero => exact absurd rfl h
          | succ m => rw [List.set_cons_zero, List.getD_cons_succ,
              List.getD_cons_succ]
      | succ n =>
          cases j with
          | zero => rw [List.set_cons_succ, List.getD_cons_zero,
              List.getD_cons_zero]
          | succ m =>
              rw [List.set_cons_succ, List.getD_cons_succ, List.getD_cons_succ]
              exact ih n m a d (by omega)

theorem getD_replicate_zero (n : Nat) :
    ∀ i : Nat, (List.replicate n (0 : Nat)).getD i 0 = 0 := by
  induction n with
  | zero => intro i; simp
  | succ k ih =>
      intro i
      cases i with
      | zero => rfl
      | succ m => rw [List.replicate_succ, List.getD_cons_succ]; exact ih m

theorem vec_bit_replicate_zero (n c : Nat) :
    vec_bit (List.replicate n 0) c = false := by
  rw [vec_bit, getD_replicate_zero, Nat.zero_testBit]

theorem testBit_or_shift_self (x k : Nat) :
    (x ||| 1 <<< k).testBit k = true := by
  simp [Nat.testBit_or, Nat.shiftLeft_eq, Nat.testBit_two_pow_self]

theorem testBit_or_shift_ne (x k j : Nat) (h : j ≠ k) :
    (x ||| 1 <<< k).testBit j = x.testBit j := by
  simp [Nat.testBit_or, Nat.shiftLeft_eq, Nat.testBit_two_pow, Ne.symm h]

theorem testBit_255 (k : Nat) : (0xFF : Nat).testBit k = decide (k < 8) := by
  rw [show (0xFF : Nat) = 2 ^ 8 - 1 from rfl, Nat.testBit_two_pow_sub_one]

theorem testBit_and_clear_self (x k : Nat) (hk : k < 8) :
    (x &&& (0xFF ^^^ 1 <<< k)).testBit k = false := by
  simp [Nat.testBit_and, Nat.testBit_xor, testBit_255, Nat.shiftLeft_eq,
    Nat.testBit_two_pow, hk]

theorem testBit_and_clear_ne (x k j : Nat) (hj : j < 8) (h : j ≠ k) :
    (x &&& (0xFF ^^^ 1 <<< k)).testBit j = x.testBit j := by
  simp [Nat.testBit_and, Nat.testBit_xor, testBit_255, Nat.shiftLeft_eq,
    Nat.testBit_two_pow, hj, Ne.symm h]

theorem vec_bit_set (v : List Nat) (idx c : Nat) (hlen : c / 8 < v.length) :
    vec_bit (set_vec_bit v (idx / 8) (1 <<< (idx % 8))) c =
      (if idx = c then true else vec_bit v c) := by
  by_cases heq : idx = c
  · subst heq
    rw [if_pos rfl, vec_bit, set_vec_bit, getD_set_self _ _ _ _ hlen,
      testBit_or_shift_self]
  · rw [if_neg heq, vec_bit, set_vec_bit, vec_bit]
    by_cases hb : idx / 8 = c / 8
    · rw [hb, getD_set_self _ _ _ _ hlen]
      exact testBit_or_shift_ne _ _ _ (by omega)
    · rw [getD_set_ne _ _ _ _ _ hb]

theorem vec_bit_clear (v : List Nat) (idx c : Nat) (hlen : c / 8 < v.length) :
    vec_bit (clear_vec_bit v (idx / 8) (1 <<< (idx % 8))) c =
      (if idx = c then false else vec_bit v c) := by
  have hc8 : c % 8 < 8 := Nat.mod_lt _ (by norm_num)
  by_cases heq : idx = c
  · subst heq
    rw [if_pos rfl, vec_bit, clear_vec_bit, getD_set_self _ _ _ _ hlen,
      testBit_and_clear_self _ _ hc8]
  · rw [if_neg heq, vec_bit, clear_vec_bit, vec_bit]
    by_cases hb : idx / 8 = c / 8
    · rw [hb, getD_set_self _ _ _ _ hlen]
      exact testBit_and_clear_ne _ _ _ hc8 (by omega)
    · rw [getD_set_ne _ _ _ _ _ hb]

theorem set_vec_bit_length (v : List Nat) (i b : Nat) :
    (set_vec_bit v i b).length = v.length := by
  simp [set_vec_bit]

theorem clear_vec_bit_length (v : List Nat) (i b : Nat) :
    (clear_vec_bit v i b).length = v.length := by
  simp [clear_vec_bit]

/-- One step of the trigger-translation loop: a disabled match changes
nothing; an enabled match on channel `c` transforms channel `c`'s bit of
each vector according to the claim's table and leaves every other
channel's bit alone; vector lengths are preserved. -/
theorem apply_match_bits (d : dev_context) (m : sr_trigger_match) (c : Nat)
    (hm : c / 8 < d.trigger_mask.length)
    (hv : c / 8 < d.trigger_value.length)
    (hml : c / 8 < d.trigger_mask_last.length)
    (hvl : c / 8 < d.trigger_value_last.length)
    (he : c / 8 < d.trigger_edge_mask.length) :
    ((apply_trigger_match d m).trigger_mask.length = d.trigger_mask.length ∧
     (apply_trigger_match d m).trigger_value.length = d.trigger_value.length ∧
     (apply_trigger_match d m).trigger_mask_last.length =
        d.trigger_mask_last.length ∧
     (apply_trigger_match d m).trigger_value_last.length =
        d.trigger_value_last.length ∧
     (apply_trigger_match d m).trigger_edge_mask.length =
        d.trigger_edge_mask.length) ∧
    vec_bit (apply_trigger_match d m).trigger_mask c =
      (if m.channel_enabled = true ∧ m.channel_index = c then
        mask_bit_action m.kind (vec_bit d.trigger_mask c)
      else vec_bit d.trigger_mask c) ∧
    vec_bit (apply_trigger_match d m).trigger_value c =
      (if m.channel_enabled = true ∧ m.channel_index = c then
        value_bit_action m.kind (vec_bit d.trigger_value c)
      else vec_bit d.trigger_value c) ∧
    vec_bit (apply_trigger_match d m).trigger_mask_last c =
      (if m.channel_enabled = true ∧ m.channel_index = c then
        mask_last_bit_action m.kind (vec_bit d.trigger_mask_last c)
      else vec_bit d.trigger_mask_last c) ∧
    vec_bit (apply_trigger_match d m).trigger_value_last c =
      (if m.channel_enabled = true ∧ m.channel_index = c then
        value_last_bit_action m.kind (vec_bit d.trigger_value_last c)
      else vec_bit d.trigger_value_last c) ∧
    vec_bit (apply_trigger_match d m).trigger_edge_mask c =
      (if m.channel_enabled = true ∧ m.channel_index = c then
        edge_mask_bit_action m.kind (vec_bit d.trigger_edge_mask c)
      else vec_bit d.trigger_edge_mask c) := by
  cases hen : m.channel_enabled with
  | false =>
      simp [apply_trigger_match, hen]
  | true =>
      cases hk : m.kind with
      | sr_trigger_one =>
          simp only [apply_trigger_match, hen, hk, Bool.not_true, if_false,
            Bool.false_eq_true]
          refine ⟨⟨?_, ?_, ?_, ?_, ?_⟩, ?_, ?_, ?_, ?_, ?_⟩ <;>
            simp [set_vec_bit_length, clear_vec_bit_length,
              vec_bit_set _ _ _ hm, vec_bit_set _ _ _ hv,
              vec_bit_clear _ _ _ hml, vec_bit_clear _ _ _ he,
              mask_bit_action, value_bit_action, mask_last_bit_action,
              value_last_bit_action, edge_mask_bit_action, ite_self]
      | sr_trigger_zero =>
          simp only [apply_trigger_match, hen, hk, Bool.not_true, if_false,
            Bool.false_eq_true]
          refine ⟨⟨?_, ?_, ?_, ?_, ?_⟩, ?_, ?_, ?_, ?_, ?_⟩ <;>
            simp [set_vec_bit_length, clear_vec_bit_length,
              vec_bit_set _ _ _ hm, vec_bit_clear _ _ _ hv,
              vec_bit_clear _ _ _ hml, vec_bit_clear _ _ _ he,
              mask_bit_action, value_bit_action, mask_last_bit_action,
              value_last_bit_action, edge_mask_bit_action, ite_self]
      | sr_trigger_rising =>
          simp only [apply_trigger_match, hen, hk, Bool.not_true, if_false,
            Bool.false_eq_true]
          refine ⟨⟨?_, ?_, ?_, ?_, ?_⟩, ?_, ?_, ?_, ?_, ?_⟩ <;>
            simp [set_vec_bit_length, clear_vec_bit_length,
              vec_bit_set _ _ _ hm, vec_bit_set _ _ _ hv,
              vec_bit_set _ _ _ hml, vec_bit_clear _ _ _ hvl,
              vec_bit_clear _ _ _ he,
              mask_bit_action, value_bit_action, mask_last_bit_action,
              value_last_bit_action, edge_mask_bit_action, ite_self]
      | sr_trigger_falling =>
          simp only [apply_trigger_match, hen, hk, Bool.not_true, if_false,
            Bool.false_eq_true]
          refine ⟨⟨?_, ?_, ?_, ?_, ?_⟩, ?_, ?_, ?_, ?_, ?_⟩ <;>
            simp [set_vec_bit_length, clear_vec_bit_length,
              vec_bit_set _ _ _ hm, vec_bit_clear _ _ _ hv,
              vec_bit_set _ _ _ hml, vec_bit_set _ _ _ hvl,
              vec_bit_clear _ _ _ he,
              mask_bit_action, value_bit_action, mask_last_bit_action,
              value_last_bit_action, edge_mask_bit_action, ite_self]
      | sr_trigger_edge =>
          simp only [apply_trigger_match, hen, hk, Bool.not_true, if_false,
            Bool.false_eq_true]
          refine ⟨⟨?_, ?_, ?_, ?_, ?_⟩, ?_, ?_, ?_, ?_, ?_⟩ <;>
            simp [set_vec_bit_length, clear_vec_bit_length,
              vec_bit_clear _ _ _ hm, vec_bit_clear _ _ _ hml,
              vec_bit_set _ _ _ he,
              mask_bit_action, value_bit_action, mask_last_bit_action,
              value_last_bit_action, edge_mask_bit_action, ite_self]

/-- Folding the match list: each channel bit of each vector evolves by
the per-kind action of exactly the enabled matches on that channel. -/
theorem foldl_matches_bits (c : Nat) (ms : List sr_trigger_match) :
    ∀ d : dev_context,
      c / 8 < d.trigger_mask.length → c / 8 < d.trigger_value.length →
      c / 8 < d.trigger_mask_last.length →
      c / 8 < d.trigger_value_last.length →
      c / 8 < d.trigger_edge_mask.length →
      vec_bit (ms.foldl apply_trigger_match d).trigger_mask c =
        (ms.filter fun m => m.channel_enabled && m.channel_index == c).foldl
          (fun b m => mask_bit_action m.kind b) (vec_bit d.trigger_mask c) ∧
      vec_bit (ms.foldl apply_trigger_match d).trigger_value c =
        (ms.filter fun m => m.channel_enabled && m.channel_index == c).foldl
          (fun b m => value_bit_action m.kind b) (vec_bit d.trigger_value c) ∧
      vec_bit (ms.foldl apply_trigger_match d).trigger_mask_last c =
        (ms.filter fun m => m.channel_enabled && m.channel_index == c).foldl
          (fun b m => mask_last_bit_action m.kind b)
          (vec_bit d.trigger_mask_last c) ∧
      vec_bit (ms.foldl apply_trigger_match d).trigger_value_last c =
        (ms.filter fun m => m.channel_enabled && m.channel_index == c).foldl
          (fun b m => value_last_bit_action m.kind b)
          (vec_bit d.trigger_value_last c) ∧
      vec_bit (ms.foldl apply_trigger_match d).trigger_edge_mask c =
        (ms.filter fun m => m.channel_enabled && m.channel_index == c).foldl
          (fun b m => edge_mask_bit_action m.kind b)
          (vec_bit d.trigger_edge_mask c) := by
  induction ms with
  | nil => intro d _ _ _ _ _; simp
  | cons m ms ih =>
      intro d h1 h2 h3 h4 h5
      obtain ⟨⟨l1, l2, l3, l4, l5⟩, b1, b2, b3, b4, b5⟩ :=
        apply_match_bits d m c h1 h2 h3 h4 h5
      obtain ⟨i1, i2, i3, i4, i5⟩ := ih (apply_trigger_match d m)
        (l1 ▸ h1) (l2 ▸ h2) (l3 ▸ h3) (l4 ▸ h4) (l5 ▸ h5)
      by_cases hcond : m.channel_enabled = true ∧ m.channel_index = c
      · have hp : (m.channel_enabled && m.channel_index == c) = true := by
          simp [hcond.1, hcond.2]
        rw [if_pos hcond] at b1 b2 b3 b4 b5
        simp [List.foldl_cons, List.filter_cons, hp, i1, i2, i3, i4, i5,
          b1, b2, b3, b4, b5]
      · have hp : (m.channel_enabled && m.channel_index == c) = false := by
          by_cases he2 : m.channel_enabled = true
          · rw [he2, Bool.true_and, beq_eq_false_iff_ne]
            intro hix
            exact hcond ⟨he2, hix⟩
          · rw [Bool.not_eq_true] at he2
            rw [he2, Bool.false_and]
        rw [if_neg hcond] at b1 b2 b3 b4 b5
        simp [List.foldl_cons, List.filter_cons, hp, i1, i2, i3, i4, i5,
          b1, b2, b3, b4, b5]

/-- C4: `ipdbg_la_convert_trigger` first zeroes all five trigger
vectors, skips every disabled channel, and transforms each enabled
channel's bit (byte `c/8`, bit `1 << (c%8)`) of each vector exactly per
the table: ONE sets value and mask, clears mask_last and edge_mask; ZERO
clears value, sets mask, clears mask_last and edge_mask; RISING sets
value, clears value_last, sets mask and mask_last, clears edge_mask;
FALLING clears value, sets value_last, sets mask and mask_last, clears
edge_mask; EDGE clears mask and mask_last and sets edge_mask, leaving
value and value_last unmodified.  Stated per channel bit: after the
translation, each vector's bit for channel `c` is the result of folding
the per-kind action over exactly the enabled matches on channel `c`,
starting from the zeroed value. -/
theorem convert_trigger_bit_table (devc : dev_context)
    (trigger : Option (List (List sr_trigger_match))) (c : Nat)
    (hc : c < 8 * data_width_bytes devc) :
    vec_bit (ipdbg_la_convert_trigger devc trigger).trigger_mask c =
      (enabled_matches_on trigger c).foldl
        (fun b m => mask_bit_action m.kind b) false ∧
    vec_bit (ipdbg_la_convert_trigger devc trigger).trigger_value c =
      (enabled_matches_on trigger c).foldl
        (fun b m => value_bit_action m.kind b) false ∧
    vec_bit (ipdbg_la_convert_trigger devc trigger).trigger_mask_last c =
      (enabled_matches_on trigger c).foldl
        (fun b m => mask_last_bit_action m.kind b) false ∧
    vec_bit (ipdbg_la_convert_trigger devc trigger).trigger_value_last c =
      (enabled_matches_on trigger c).foldl
        (fun b m => value_last_bit_action m.kind b) false ∧
    vec_bit (ipdbg_la_convert_trigger devc trigger).trigger_edge_mask c =
      (enabled_matches_on trigger c).foldl
        (fun b m => edge_mask_bit_action m.kind b) false := by
  have hdb : c / 8 < data_width_bytes devc := by omega
  cases trigger with
  | none =>
      simp [ipdbg_la_convert_trigger, enabled_matches_on,
        vec_bit_replicate_zero]
  | some stages =>
      simp only [ipdbg_la_convert_trigger, enabled_matches_on, Option.getD_some]
      rw [← List.foldl_flatten]
      have h := foldl_matches_bits c stages.flatten
        { devc with
          num_transfers := 0, raw_sample_buf := [],
          trigger_mask := List.replicate (data_width_bytes devc) 0,
          trigger_value := List.replicate (data_width_bytes devc) 0,
          trigger_mask_last := List.replicate (data_width_bytes devc) 0,
          trigger_value_last := List.replicate (data_width_bytes devc) 0,
          trigger_edge_mask := List.replicate (data_width_bytes devc) 0 }
        (by simpa using hdb) (by simpa using hdb) (by simpa using hdb)
        (by simpa using hdb) (by simpa using hdb)
      simpa [vec_bit_replicate_zero] using h

/-- Witness for C4: a single enabled RISING match on channel 5 of an
8-bit device with stale all-ones vectors; the fold of the actions over
that one match yields mask set, value set, mask_last set, value_last
clear, edge_mask clear, matching the spec's example
(`mask[0] = 0x20` etc.). -/
theorem convert_trigger_bit_table_witness :
    5 < 8 * data_width_bytes devc_trig_example ∧
    (vec_bit (ipdbg_la_convert_trigger devc_trig_example trig_rising5).trigger_mask 5 =
      (enabled_matches_on trig_rising5 5).foldl
        (fun b m => mask_bit_action m.kind b) false ∧
    vec_bit (ipdbg_la_convert_trigger devc_trig_example trig_rising5).trigger_value 5 =
      (enabled_matches_on trig_rising5 5).foldl
        (fun b m => value_bit_action m.kind b) false ∧
    vec_bit (ipdbg_la_convert_trigger devc_trig_example trig_rising5).trigger_mask_last 5 =
      (enabled_matches_on trig_rising5 5).foldl
        (fun b m => mask_last_bit_action m.kind b) false ∧
    vec_bit (ipdbg_la_convert_trigger devc_trig_example trig_rising5).trigger_value_last 5 =
      (enabled_matches_on trig_rising5 5).foldl
        (fun b m => value_last_bit_action m.kind b) false ∧
    vec_bit (ipdbg_la_convert_trigger devc_trig_example trig_rising5).trigger_edge_mask 5 =
      (enabled_matches_on trig_rising5 5).foldl
        (fun b m => edge_mask_bit_action m.kind b) false) ∧
    (ipdbg_la_convert_trigger devc_trig_example trig_rising5).trigger_mask = [0x20] ∧
    (ipdbg_la_convert_trigger devc_trig_example trig_rising5).trigger_value = [0x20] ∧
    (ipdbg_la_convert_trigger devc_trig_example trig_rising5).trigger_mask_last = [0x20] ∧
    (ipdbg_la_convert_trigger devc_trig_example trig_rising5).trigger_value_last = [0x00] ∧
    (ipdbg_la_convert_trigger devc_trig_example trig_rising5).trigger_edge_mask = [0x00] :=
  ⟨by decide,
   convert_trigger_bit_table devc_trig_example trig_rising5 5 (by decide),
   by decide, by decide, by decide, by decide, by decide⟩

/-- C5 (amended: the decode transition fires at the
`limit_samples_max * raw_data_width_bytes` device-memory budget, not at
`limit_samples * raw_data_width_bytes`): in every invocation, copying
into the buffer is capped by the remaining
`limit_samples * raw_data_width_bytes - num_transfers` keep budget
(bytes beyond it are discarded — only a `take` of the read is copied),
`num_transfers` advances by the full read size, and the branch decodes
exactly when `num_transfers` has reached
`limit_samples_max * raw_data_width_bytes`. -/
theorem receive_data_budget (devc : dev_context) (incoming : List Nat) :
    (is_decoded (ipdbg_la_receive_data devc incoming) = true ↔
      devc.limit_samples_max * raw_data_width_bytes devc ≤
        devc.num_transfers) ∧
    num_move devc incoming.length ≤
      (devc.limit_samples * raw_data_width_bytes devc : Int) -
        (devc.num_transfers : Int) ∧
    (∀ d2, ipdbg_la_receive_data devc incoming = .accumulated d2 →
      d2.num_transfers = devc.num_transfers + incoming.length ∧
      d2.raw_sample_buf =
        (if 0 < num_move devc incoming.length then
          memcpy_at devc.raw_sample_buf devc.num_transfers
            (incoming.take (num_move devc incoming.length).toNat)
        else devc.raw_sample_buf) ∧
      (incoming.take (num_move devc incoming.length).toNat).length ≤
        devc.limit_samples * raw_data_width_bytes devc -
          devc.num_transfers) := by
  have hmove : num_move devc incoming.length ≤
      (devc.limit_samples * raw_data_width_bytes devc : Int) -
        (devc.num_transfers : Int) := by
    rw [num_move]
    by_cases hfit : devc.num_transfers + incoming.length ≤
        devc.limit_samples * raw_data_width_bytes devc
    · rw [if_pos hfit]
      omega
    · rw [if_neg hfit]
  have htake : (incoming.take (num_move devc incoming.length).toNat).length ≤
      devc.limit_samples * raw_data_width_bytes devc - devc.num_transfers := by
    have h1 : (incoming.take (num_move devc incoming.length).toNat).length ≤
        (num_move devc incoming.length).toNat := by
      simp [List.length_take]
    have h2 : (num_move devc incoming.length).toNat ≤
        devc.limit_samples * raw_data_width_bytes devc -
          devc.num_transfers := by
      omega
    omega
  by_cases hacc : devc.num_transfers <
      devc.limit_samples_max * raw_data_width_bytes devc
  · refine ⟨?_, hmove, ?_⟩
    · rw [ipdbg_la_receive_data, if_pos hacc]
      by_cases hpos : 0 < incoming.length
      · rw [if_pos hpos]
        simp [is_decoded]
        omega
      · rw [if_neg hpos]
        simp [is_decoded]
        omega
    · intro d2 hd2
      rw [ipdbg_la_receive_data, if_pos hacc] at hd2
      by_cases hpos : 0 < incoming.length
      · rw [if_pos hpos] at hd2
        simp only [receive_result.accumulated.injEq] at hd2
        subst hd2
        exact ⟨rfl, rfl, htake⟩
      · rw [if_neg hpos] at hd2
        simp only [receive_result.accumulated.injEq] at hd2
        subst hd2
        have hlen : incoming.length = 0 := by omega
        refine ⟨by omega, ?_, htake⟩
        have hnm : ¬0 < num_move devc incoming.length := by
          rw [num_move, hlen]
          by_cases hfit : devc.num_transfers + 0 ≤
              devc.limit_samples * raw_data_width_bytes devc
          · rw [if_pos hfit]; omega
          · rw [if_neg hfit]; omega
        rw [if_neg hnm]
  · refine ⟨?_, hmove, ?_⟩
    · rw [ipdbg_la_receive_data, if_neg hacc]
      simp [is_decoded]
      omega
    · intro d2 hd2
      rw [ipdbg_la_receive_data, if_neg hacc] at hd2
      exact absurd hd2 (by simp)

/-- Witness for C5: from `num_transfers = 1`, keep budget 2, device
budget 4, a 3-byte read copies only 1 byte (the budget remainder) and
advances the count by 3; the invocation stays in the accumulating
branch. -/
theorem receive_data_budget_witness :
    (is_decoded (ipdbg_la_receive_data devc_recv_example [7, 8, 9]) = true ↔
      devc_recv_example.limit_samples_max *
          raw_data_width_bytes devc_recv_example ≤
        devc_recv_example.num_transfers) ∧
    num_move devc_recv_example ([7, 8, 9] : List Nat).length ≤
      (devc_recv_example.limit_samples *
          raw_data_width_bytes devc_recv_example : Int) -
        (devc_recv_example.num_transfers : Int) ∧
    (∀ d2, ipdbg_la_receive_data devc_recv_example [7, 8, 9] =
        .accumulated d2 →
      d2.num_transfers =
        devc_recv_example.num_transfers + ([7, 8, 9] : List Nat).length ∧
      d2.raw_sample_buf =
        (if 0 < num_move devc_recv_example ([7, 8, 9] : List Nat).length then
          memcpy_at devc_recv_example.raw_sample_buf
            devc_recv_example.num_transfers
            (([7, 8, 9] : List Nat).take
              (num_move devc_recv_example
                ([7, 8, 9] : List Nat).length).toNat)
        else devc_recv_example.raw_sample_buf) ∧
      (([7, 8, 9] : List Nat).take
          (num_move devc_recv_example
            ([7, 8, 9] : List Nat).length).toNat).length ≤
        devc_recv_example.limit_samples *
            raw_data_width_bytes devc_recv_example -
          devc_recv_example.num_transfers) :=
  receive_data_budget devc_recv_example [7, 8, 9]

/-- C5 counterexample as stated: with `limit_samples = 1 <
limit_samples_max = 2` and `num_transfers` exactly at the claimed
`limit_samples * raw_data_width_bytes` budget, the invocation still
accumulates instead of transitioning to decode. -/
theorem receive_data_budget_cex :
    devc_recv_boundary.num_transfers =
      devc_recv_boundary.limit_samples *
        raw_data_width_bytes devc_recv_boundary ∧
    is_decoded (ipdbg_la_receive_data devc_recv_boundary [9]) = false := by
  refine ⟨by decide, by decide⟩

theorem send_escaping_flatten_map (l : List Nat) :
    (l.map (fun b => send_escaping [b])).flatten = send_escaping l := by
  induction l with
  | nil => simp [send_escaping]
  | cons b rest ih =>
      calc ((b :: rest).map (fun b => send_escaping [b])).flatten
          = send_escaping [b] ++ (rest.map (fun b => send_escaping [b])).flatten := by
            simp
        _ = send_escaping [b] ++ send_escaping rest := by rw [ih]
        _ = send_escaping ([b] ++ rest) := (send_escaping_append [b] rest).symm
        _ = send_escaping (b :: rest) := rfl

theorem reverse_eq_map_getD (v : List Nat) :
    (List.range v.length).map (fun i => v.getD (v.length - 1 - i) 0) =
      v.reverse := by
  induction v with
  | nil => simp
  | cons x xs ih =>
      have hlen : (x :: xs).length = xs.length + 1 := rfl
      rw [hlen, List.range_succ, List.map_append]
      have h1 : (List.range xs.length).map
          (fun i => (x :: xs).getD (xs.length + 1 - 1 - i) 0) =
          (List.range xs.length).map
            (fun i => xs.getD (xs.length - 1 - i) 0) := by
        apply List.map_congr_left
        intro i hi
        have hi2 := List.mem_range.mp hi
        have : xs.length + 1 - 1 - i = (xs.length - 1 - i) + 1 := by omega
        rw [this, List.getD_cons_succ]
      rw [h1, ih]
      simp

theorem escaping_loop_eq (v : List Nat) :
    ((List.range v.length).map
      (fun i => send_escaping [v.getD (v.length - 1 - i) 0])).flatten =
      send_escaping v.reverse := by
  have h1 : (List.range v.length).map
      (fun i => send_escaping [v.getD (v.length - 1 - i) 0]) =
      ((List.range v.length).map
        (fun i => v.getD (v.length - 1 - i) 0)).map
        (fun b => send_escaping [b]) := by
    rw [List.map_map]
    rfl
  rw [h1, send_escaping_flatten_map, reverse_eq_map_getD]

/-- C8: `ipdbg_la_send_trigger` emits the five vectors in the fixed
order mask, value, mask_last, value_last, edge_mask; each vector is
preceded by its exact 3-opcode preamble (`0xF0`, its group selector,
its vector selector, with edge_mask using the separate `0xF5`/`0xF6`
pair) and its bytes go out in reverse array order (index
`data_width_bytes - 1` down to `0`), each byte individually escaped. -/
theorem send_trigger_spec (devc : dev_context)
    (h1 : devc.trigger_mask.length = data_width_bytes devc)
    (h2 : devc.trigger_value.length = data_width_bytes devc)
    (h3 : devc.trigger_mask_last.length = data_width_bytes devc)
    (h4 : devc.trigger_value_last.length = data_width_bytes devc)
    (h5 : devc.trigger_edge_mask.length = data_width_bytes devc) :
    ipdbg_la_send_trigger devc =
      [CMD_CFG_TRIGGER, CMD_TRIG_MASKS, CMD_TRIG_MASK] ++
        send_escaping devc.trigger_mask.reverse ++
      [CMD_CFG_TRIGGER, CMD_TRIG_MASKS, CMD_TRIG_VALUE] ++
        send_escaping devc.trigger_value.reverse ++
      [CMD_CFG_TRIGGER, CMD_TRIG_MASKS_LAST, CMD_TRIG_MASK_LAST] ++
        send_escaping devc.trigger_mask_last.reverse ++
      [CMD_CFG_TRIGGER, CMD_TRIG_MASKS_LAST, CMD_TRIG_VALUE_LAST] ++
        send_escaping devc.trigger_value_last.reverse ++
      [CMD_CFG_TRIGGER, CMD_TRIG_SELECT_EDGE_MASK, CMD_TRIG_SET_EDGE_MASK] ++
        send_escaping devc.trigger_edge_mask.reverse := by
  have e1 : ((List.range (data_width_bytes devc)).map (fun i =>
      send_escaping
        [devc.trigger_mask.getD (data_width_bytes devc - 1 - i) 0])).flatten =
      send_escaping devc.trigger_mask.reverse := by
    rw [← h1]; exact escaping_loop_eq _
  have e2 : ((List.range (data_width_bytes devc)).map (fun i =>
      send_escaping
        [devc.trigger_value.getD (data_width_bytes devc - 1 - i) 0])).flatten =
      send_escaping devc.trigger_value.reverse := by
    rw [← h2]; exact escaping_loop_eq _
  have e3 : ((List.range (data_width_bytes devc)).map (fun i =>
      send_escaping
        [devc.trigger_mask_last.getD
          (data_width_bytes devc - 1 - i) 0])).flatten =
      send_escaping devc.trigger_mask_last.reverse := by
    rw [← h3]; exact escaping_loop_eq _
  have e4 : ((List.range (data_width_bytes devc)).map (fun i =>
      send_escaping
        [devc.trigger_value_last.getD
          (data_width_bytes devc - 1 - i) 0])).flatten =
      send_escaping devc.trigger_value_last.reverse := by
    rw [← h4]; exact escaping_loop_eq _
  have e5 : ((List.range (data_width_bytes devc)).map (fun i =>
      send_escaping
        [devc.trigger_edge_mask.getD
          (data_width_bytes devc - 1 - i) 0])).flatten =
      send_escaping devc.trigger_edge_mask.reverse := by
    rw [← h5]; exact escaping_loop_eq _
  rw [ipdbg_la_send_trigger, e1, e2, e3, e4, e5]

/-- Witness for C8 on a 16-bit device whose vectors contain the RESET
and ESCAPE values (so the escaping in the serialized stream is
exercised). -/
theorem send_trigger_spec_witness :
    (devc_send_example.trigger_mask.length =
        data_width_bytes devc_send_example ∧
      devc_send_example.trigger_value.length =
        data_width_bytes devc_send_example ∧
      devc_send_example.trigger_mask_last.length =
        data_width_bytes devc_send_example ∧
      devc_send_example.trigger_value_last.length =
        data_width_bytes devc_send_example ∧
      devc_send_example.trigger_edge_mask.length =
        data_width_bytes devc_send_example) ∧
    ipdbg_la_send_trigger devc_send_example =
      [CMD_CFG_TRIGGER, CMD_TRIG_MASKS, CMD_TRIG_MASK] ++
        send_escaping devc_send_example.trigger_mask.reverse ++
      [CMD_CFG_TRIGGER, CMD_TRIG_MASKS, CMD_TRIG_VALUE] ++
        send_escaping devc_send_example.trigger_value.reverse ++
      [CMD_CFG_TRIGGER, CMD_TRIG_MASKS_LAST, CMD_TRIG_MASK_LAST] ++
        send_escaping devc_send_example.trigger_mask_last.reverse ++
      [CMD_CFG_TRIGGER, CMD_TRIG_MASKS_LAST, CMD_TRIG_VALUE_LAST] ++
        send_escaping devc_send_example.trigger_value_last.reverse ++
      [CMD_CFG_TRIGGER, CMD_TRIG_SELECT_EDGE_MASK, CMD_TRIG_SET_EDGE_MASK] ++
        send_escaping devc_send_example.trigger_edge_mask.reverse :=
  ⟨⟨by decide, by decide, by decide, by decide, by decide⟩,
   send_trigger_spec devc_send_example (by decide) (by decide) (by decide)
     (by decide) (by decide)⟩

/-- C9 (code evaluated at the failing input): with the sample-rate
feature bit set and the 8 bytes `[0,0,0,0,1,0,0,0]` received, the
little-endian value claimed by the spec is `2^32`, but the code's
`(buf[4] << 32) & 0x000000FF00000000` shifts a 32-bit `int` by 32
(undefined; on prevalent platforms the count is reduced mod 32), so
bytes 4-7 never reach the rate and the result is 0.  Bytes 0-3 do
arrive little-endian, and the feature-clear and failed-read paths leave
the rate unset. -/
theorem set_samplerate_drops_high_bytes :
    ipdbg_la_set_samplerate 4 (some [0, 0, 0, 0, 1, 0, 0, 0]) = some 0 ∧
    (0 : Nat) ≠ 2 ^ 32 ∧
    ipdbg_la_set_samplerate 4 (some [0x21, 0x43, 0x65, 0x07, 0, 0, 0, 0]) =
      some 0x07654321 ∧
    ipdbg_la_set_samplerate 0 (some [1, 1, 1, 1, 1, 1, 1, 1]) = none ∧
    ipdbg_la_set_samplerate 4 none = none := by
  refine ⟨by decide, by decide, by decide, by decide, by decide⟩

theorem rne_of_floor_lt (s : ℚ) (f : ℤ) (hf : ⌊s⌋ = f) (h : s - f < 1 / 2) :
    rne s = f := by
  rw [rne, hf, if_pos h]

theorem rne_of_floor_gt (s : ℚ) (f : ℤ) (hf : ⌊s⌋ = f) (h : 1 / 2 < s - f) :
    rne s = f + 1 := by
  rw [rne, hf, if_neg (by linarith), if_pos h]

theorem round_double_eval (q : ℚ) (e : ℤ) (v : ℚ) (hq : 0 < q)
    (hb : binade q = e)
    (hr : (rne (q / 2 ^ (e - 52)) : ℚ) * 2 ^ (e - 52) = v) :
    round_double q = v := by
  rw [round_double, if_neg (not_le.mpr hq), hb, hr]

theorem binade_eval_ge (q : ℚ) (n e : Nat) (h1 : 1 ≤ q) (hf : ⌊q⌋ = (n : ℤ))
    (hl : natlog2 n = e) : binade q = (e : ℤ) := by
  rw [binade, if_pos h1, hf, Int.toNat_natCast, hl]

theorem binade_eval_lt (q : ℚ) (n e : Nat) (h1 : ¬1 ≤ q)
    (hc : ⌈q⁻¹⌉ = (n : ℤ)) (hl : ceillog2 n = e) : binade q = -(e : ℤ) := by
  rw [binade, if_neg h1, hc, Int.toNat_natCast, hl]

theorem round_double_999 : round_double 999 = 999 := by
  apply round_double_eval 999 9 999 (by norm_num)
    (binade_eval_ge 999 999 9 (by norm_num) (by norm_num) (by decide))
  have hs : (999 : ℚ) / 2 ^ ((9 : ℤ) - 52) = 999 * 2 ^ 43 := by
    rw [show ((9 : ℤ) - 52) = -43 by norm_num, zpow_neg]
    norm_num
  rw [hs, rne_of_floor_lt _ (999 * 2 ^ 43) (by norm_num) (by norm_num)]
  rw [show ((9 : ℤ) - 52) = -43 by norm_num, zpow_neg]
  push_cast
  norm_num

theorem round_double_50 : round_double 50 = 50 := by
  apply round_double_eval 50 5 50 (by norm_num)
    (binade_eval_ge 50 50 5 (by norm_num) (by norm_num) (by decide))
  have hs : (50 : ℚ) / 2 ^ ((5 : ℤ) - 52) = 50 * 2 ^ 47 := by
    rw [show ((5 : ℤ) - 52) = -47 by norm_num, zpow_neg]
    norm_num
  rw [hs, rne_of_floor_lt _ (50 * 2 ^ 47) (by norm_num) (by norm_num)]
  rw [show ((5 : ℤ) - 52) = -47 by norm_num, zpow_neg]
  push_cast
  norm_num

theorem round_double_100 : round_double 100 = 100 := by
  apply round_double_eval 100 6 100 (by norm_num)
    (binade_eval_ge 100 100 6 (by norm_num) (by norm_num) (by decide))
  have hs : (100 : ℚ) / 2 ^ ((6 : ℤ) - 52) = 100 * 2 ^ 46 := by
    rw [show ((6 : ℤ) - 52) = -46 by norm_num, zpow_neg]
    norm_num
  rw [hs, rne_of_floor_lt _ (100 * 2 ^ 46) (by norm_num) (by norm_num)]
  rw [show ((6 : ℤ) - 52) = -46 by norm_num, zpow_neg]
  push_cast
  norm_num

theorem round_double_29 : round_double 29 = 29 := by
  apply round_double_eval 29 4 29 (by norm_num)
    (binade_eval_ge 29 29 4 (by norm_num) (by norm_num) (by decide))
  have hs : (29 : ℚ) / 2 ^ ((4 : ℤ) - 52) = 29 * 2 ^ 48 := by
    rw [show ((4 : ℤ) - 52) = -48 by norm_num, zpow_neg]
    norm_num
  rw [hs, rne_of_floor_lt _ (29 * 2 ^ 48) (by norm_num) (by norm_num)]
  rw [show ((4 : ℤ) - 52) = -48 by norm_num, zpow_neg]
  push_cast
  norm_num

/-- `999 / 100.0` rounds up to the binary64 value
`5623870034678907 / 2^49 = 9.990000000000000213…`. -/
theorem round_double_999_100 :
    round_double (999 / 100) = 5623870034678907 / 2 ^ 49 := by
  apply round_double_eval (999 / 100) 3 (5623870034678907 / 2 ^ 49)
    (by norm_num)
    (binade_eval_ge (999 / 100) 9 3 (by norm_num)
      (by rw [Int.floor_eq_iff] <;> norm_num) (by decide))
  have hs : (999 : ℚ) / 100 / 2 ^ ((3 : ℤ) - 52) = 999 * 2 ^ 49 / 100 := by
    rw [show ((3 : ℤ) - 52) = -49 by norm_num, zpow_neg]
    field_simp
    norm_num
  rw [hs, rne_of_floor_gt _ 5623870034678906
    (by rw [Int.floor_eq_iff] <;> norm_num) (by norm_num)]
  rw [show ((3 : ℤ) - 52) = -49 by norm_num, zpow_neg]
  push_cast
  norm_num

/-- The binary64 product `double(999/100.0) * 50` rounds to exactly
`499.5`, so the delay for `limit_samples = 1000, capture_ratio = 50`
truncates to 499 as the spec states. -/
theorem round_double_999_100_mul_50 :
    round_double (5623870034678907 / 2 ^ 49 * 50) = 999 / 2 := by
  apply round_double_eval (5623870034678907 / 2 ^ 49 * 50) 8 (999 / 2)
    (by norm_num)
    (binade_eval_ge (5623870034678907 / 2 ^ 49 * 50) 499 8 (by norm_num)
      (by rw [Int.floor_eq_iff] <;> norm_num) (by decide))
  have hs : (5623870034678907 : ℚ) / 2 ^ 49 * 50 / 2 ^ ((8 : ℤ) - 52) =
      281193501733945350 / 32 := by
    rw [show ((8 : ℤ) - 52) = -44 by norm_num, zpow_neg]
    field_simp
    norm_num
  rw [hs, rne_of_floor_lt _ 8787296929185792
    (by rw [Int.floor_eq_iff] <;> norm_num) (by norm_num)]
  rw [show ((8 : ℤ) - 52) = -44 by norm_num, zpow_neg]
  push_cast
  norm_num

/-- `29 / 100.0` rounds down to the binary64 value
`5224175567749775 / 2^54 = 0.2899999999999999800…`. -/
theorem round_double_29_100 :
    round_double (29 / 100) = 5224175567749775 / 2 ^ 54 := by
  apply round_double_eval (29 / 100) (-2) (5224175567749775 / 2 ^ 54)
    (by norm_num)
  · have h := binade_eval_lt (29 / 100) 4 2 (by norm_num)
      (by
        rw [show ((29 : ℚ) / 100)⁻¹ = 100 / 29 by norm_num, Int.ceil_eq_iff] <;>
          norm_num)
      (by decide)
    simpa using h
  · have hs : (29 : ℚ) / 100 / 2 ^ ((-2 : ℤ) - 52) = 29 * 2 ^ 54 / 100 := by
      rw [show ((-2 : ℤ) - 52) = -54 by norm_num, zpow_neg]
      field_simp
      norm_num
    rw [hs, rne_of_floor_lt _ 5224175567749775
      (by rw [Int.floor_eq_iff] <;> norm_num) (by norm_num)]
    rw [show ((-2 : ℤ) - 52) = -54 by norm_num, zpow_neg]
    push_cast
    norm_num

/-- The binary64 product `double(29/100.0) * 100` rounds to
`8162774324609023 / 2^48 = 28.99999999999999644…`, strictly below 29:
truncation then yields 28, not the exact `floor(29 * 100 / 100) = 29`. -/
theorem round_double_29_100_mul_100 :
    round_double (5224175567749775 / 2 ^ 54 * 100) =
      8162774324609023 / 2 ^ 48 := by
  apply round_double_eval (5224175567749775 / 2 ^ 54 * 100) 4
    (8162774324609023 / 2 ^ 48) (by norm_num)
    (binade_eval_ge (5224175567749775 / 2 ^ 54 * 100) 28 4 (by norm_num)
      (by rw [Int.floor_eq_iff] <;> norm_num) (by decide))
  have hs : (5224175567749775 : ℚ) / 2 ^ 54 * 100 / 2 ^ ((4 : ℤ) - 52) =
      522417556774977500 / 64 := by
    rw [show ((4 : ℤ) - 52) = -48 by norm_num, zpow_neg]
    field_simp
    norm_num
  rw [hs, rne_of_floor_lt _ 8162774324609023
    (by rw [Int.floor_eq_iff] <;> norm_num) (by norm_num)]
  rw [show ((4 : ℤ) - 52) = -48 by norm_num, zpow_neg]
  push_cast
  norm_num

/-- C7 (amended: the delay is computed in binary64 double precision,
`trunc(((limit_samples - 1) / 100.0) * capture_ratio)`, which can fall
below the exact integer `floor((limit_samples - 1) * capture_ratio /
100)`): for `limit_samples = 1000` and `capture_ratio = 50` the double
computation yields exactly 499, agreeing with the spec's example. -/
theorem send_delay_1000_50 : ipdbg_la_send_delay_value 1000 50 = 499 := by
  rw [ipdbg_la_send_delay_value,
    show ((1000 - 1 : Nat) : ℚ) = 999 by norm_num,
    show ((50 : Nat) : ℚ) = 50 by norm_num,
    round_double_999, round_double_50, round_double_999_100,
    round_double_999_100_mul_50,
    show ⌊(999 / 2 : ℚ)⌋ = 499 by rw [Int.floor_eq_iff] <;> norm_num]
  rfl

/-- C7 counterexample as stated: at `limit_samples = 30`,
`capture_ratio = 100` the code's double computation truncates to 28,
while the claimed exact formula `floor((30 - 1) * 100 / 100)` gives
29. -/
theorem send_delay_30_100_cex :
    ipdbg_la_send_delay_value 30 100 = 28 ∧
    (30 - 1) * 100 / 100 = 29 ∧
    ipdbg_la_send_delay_value 30 100 ≠ (30 - 1) * 100 / 100 := by
  have h28 : ipdbg_la_send_delay_value 30 100 = 28 := by
    rw [ipdbg_la_send_delay_value,
      show ((30 - 1 : Nat) : ℚ) = 29 by norm_num,
      show ((100 : Nat) : ℚ) = 100 by norm_num,
      round_double_29, round_double_100, round_double_29_100,
      round_double_29_100_mul_100,
      show ⌊(8162774324609023 / 2 ^ 48 : ℚ)⌋ = 28 by
        rw [Int.floor_eq_iff] <;> norm_num]
    rfl
  exact ⟨h28, by norm_num, by rw [h28]; norm_num⟩

end IpdbgLa
